import Mathlib

/-!
Verification of the nano-fal node-adapter repository.

This file embeds, as Lean definitions, the parts of the repository that the
frozen claims speak about:

* the numeric helpers of the adapters (`clamp` in
  src/nodes/flux-pro/utils.ts, `clampNumber` in
  src/nodes/hunyuan3d/Hunyuan3DNode.ts and in the Flux-1 Krea Redux node);
* the expected-duration formulas of the Flux Pro text-to-image and the
  Flux-1 Krea Redux adapters;
* the `onQueueUpdate` lifecycle callback shared by the adapters;
* `getAssetExtension` from src/utils/index.ts, together with an executable
  model of the two JavaScript regular-expression matches it performs;
* the progress-estimation strategy (`createProgressStrategy`).  The module
  `utils/progress-strategy.ts` that implements it is not part of the
  source tree available here (only its callers are), so the strategy is
  modelled from the design specification.

JavaScript numbers are modelled as `JNum`: either `NaN` or an exact
rational.  (The adapters' arithmetic stays on small decimal constants, so
exact rationals reproduce the float results; infinities do not arise in
the clamped quantities the claims mention.)
-/

/-- A JavaScript number as the adapters use it: either `NaN` or a finite
value, modelled as an exact rational. -/
inductive JNum where
  | nan : JNum
  | num : ℚ → JNum
deriving DecidableEq

/-- Embedding of `clamp` from src/nodes/flux-pro/utils.ts (lines 184-189):
`if (Number.isNaN(value)) return min; return Math.min(Math.max(value, min), max)`. -/
def clamp (value : JNum) (lo hi : ℚ) : ℚ :=
  match value with
  | .nan => lo
  | .num v => min (max v lo) hi

/-- Embedding of `clampNumber` from src/nodes/hunyuan3d/Hunyuan3DNode.ts
(lines 232-237); the Flux-1 Krea Redux node defines the same function
verbatim.  The body is identical to `clamp` of flux-pro/utils.ts. -/
def clampNumber (value : JNum) (lo hi : ℚ) : ℚ :=
  match value with
  | .nan => lo
  | .num v => min (max v lo) hi

/-- JavaScript `Math.round` on a finite number: round half toward
positive infinity, i.e. `⌊x + 1/2⌋`. -/
def jround : JNum → JNum
  | .nan => .nan
  | .num q => .num (⌊q + 1/2⌋ : ℤ)

/-- Embedding of the Flux Pro text-to-image expected-duration formula
(src/nodes/flux-pro/utils.ts line 479):
`Math.min(120000, Math.max(15000, Math.floor(variant.baseMs * numImages * syncFactor)))`
where `numImages = clamp(raw, 1, 4)` (line 400) and
`syncFactor = syncMode ? 1.25 : 1` (line 478). -/
def fluxProExpectedMs (baseMs : ℚ) (rawNumImages : JNum) (syncMode : Bool) : ℤ :=
  let numImages := clamp rawNumImages 1 4
  let syncFactor : ℚ := if syncMode then 5/4 else 1
  min 120000 (max 15000 ⌊baseMs * numImages * syncFactor⌋)

/-- The acceleration levels accepted by the Flux-1 Krea Redux node
(`allowedAccelerations = {'none', 'regular', 'high'}`). -/
inductive Acceleration where
  | none | regular | high
deriving DecidableEq

/-- Embedding of the Flux-1 Krea Redux expected-duration formula
(Flux-1 Krea Redux node, lines 265-271):
`accelerationFactor = high ? 0.65 : regular ? 0.85 : 1`,
`syncFactor = syncMode ? 1.2 : 1`, `stepFactor = numInferenceSteps / 28`,
`expectedMs = Math.min(150000, Math.max(16000, Math.floor(numImages * 26000 * stepFactor * accelerationFactor * syncFactor)))`
with `numImages = clampNumber(raw, 1, 4)` (line 229) and
`numInferenceSteps = clampNumber(Math.round(raw), 1, 50)` (line 233). -/
def kreaReduxExpectedMs (rawNumImages rawSteps : JNum) (acc : Acceleration)
    (syncMode : Bool) : ℤ :=
  let numImages := clampNumber rawNumImages 1 4
  let numInferenceSteps := clampNumber (jround rawSteps) 1 50
  let accelerationFactor : ℚ :=
    match acc with
    | .high => 13/20
    | .regular => 17/20
    | .none => 1
  let syncFactor : ℚ := if syncMode then 6/5 else 1
  let stepFactor := numInferenceSteps / 28
  min 150000 (max 16000
    ⌊numImages * 26000 * stepFactor * accelerationFactor * syncFactor⌋)

theorem clamp_mem (v : JNum) (lo hi : ℚ) (h : lo ≤ hi) :
    lo ≤ clamp v lo hi ∧ clamp v lo hi ≤ hi := by
  cases v with
  | nan => exact ⟨le_refl lo, h⟩
  | num q =>
    refine ⟨le_min (le_max_right q lo) h, min_le_right _ _⟩

/-- C10: for `min ≤ max`, the adapters' clamp helpers map `NaN` to the
minimum and otherwise return a value inside `[min, max]`, returning the
value itself when it is already in range; `clamp` (flux-pro) and
`clampNumber` (hunyuan3d / Flux-1 Krea Redux) behave identically. -/
theorem clamp_spec (v : JNum) (lo hi : ℚ) (h : lo ≤ hi) :
    clamp JNum.nan lo hi = lo ∧
    clampNumber JNum.nan lo hi = lo ∧
    (lo ≤ clamp v lo hi ∧ clamp v lo hi ≤ hi) ∧
    (∀ q : ℚ, lo ≤ q → q ≤ hi → clamp (JNum.num q) lo hi = q) ∧
    clampNumber v lo hi = clamp v lo hi := by
  refine ⟨rfl, rfl, clamp_mem v lo hi h, ?_, ?_⟩
  · intro q hlo hhi
    simp [clamp, max_eq_left hlo, min_eq_left hhi]
  · cases v <;> rfl

/-- C10 witness at a concrete instance. -/
theorem clamp_spec_witness :
    clamp JNum.nan 1 4 = 1 ∧
    clampNumber JNum.nan 1 4 = 1 ∧
    (1 ≤ clamp (JNum.num 7) 1 4 ∧ clamp (JNum.num 7) 1 4 ≤ 4) ∧
    (∀ q : ℚ, 1 ≤ q → q ≤ 4 → clamp (JNum.num q) 1 4 = q) ∧
    clampNumber (JNum.num 7) 1 4 = clamp (JNum.num 7) 1 4 := by
  have h := clamp_spec (JNum.num 7) 1 4 (by norm_num)
  exact ⟨h.1, h.2.1, h.2.2.1, fun q h1 h2 => (clamp_spec (JNum.num q) 1 4 (by norm_num)).2.2.2.1 q h1 h2, h.2.2.2.2⟩

/-- C7: the progress-strategy configurations built by the Flux Pro
text-to-image adapter and by the Flux-1 Krea Redux adapter always have a
strictly positive `expectedMs`: the former lies in `[15000, 120000]` and
the latter in `[16000, 150000]`, for every raw parameter value (including
`NaN`, which the clamps map to the minimum). -/
theorem adapters_expectedMs_positive (baseMs : ℚ) (rawNumImages rawSteps : JNum)
    (acc : Acceleration) (syncMode syncMode' : Bool) :
    (15000 ≤ fluxProExpectedMs baseMs rawNumImages syncMode ∧
      fluxProExpectedMs baseMs rawNumImages syncMode ≤ 120000 ∧
      0 < fluxProExpectedMs baseMs rawNumImages syncMode) ∧
    (16000 ≤ kreaReduxExpectedMs rawNumImages rawSteps acc syncMode' ∧
      kreaReduxExpectedMs rawNumImages rawSteps acc syncMode' ≤ 150000 ∧
      0 < kreaReduxExpectedMs rawNumImages rawSteps acc syncMode') := by
  constructor
  · refine ⟨le_min (by norm_num) (le_max_left _ _), min_le_left _ _, ?_⟩
    have h15 : (15000 : ℤ) ≤ min 120000 (max 15000 ⌊baseMs * clamp rawNumImages 1 4 * (if syncMode then (5:ℚ)/4 else 1)⌋) :=
      le_min (by norm_num) (le_max_left _ _)
    calc (0 : ℤ) < 15000 := by norm_num
      _ ≤ _ := h15
  · refine ⟨le_min (by norm_num) (le_max_left _ _), min_le_left _ _, ?_⟩
    have h16 : (16000 : ℤ) ≤ kreaReduxExpectedMs rawNumImages rawSteps acc syncMode' :=
      le_min (by norm_num) (le_max_left _ _)
    calc (0 : ℤ) < 16000 := by norm_num
      _ ≤ _ := h16

/-- The three lifecycle statuses delivered by the fal client's
`onQueueUpdate` callback (`QueueStatus.status`). -/
inductive FalStatus where
  | inQueue | inProgress | completed
deriving DecidableEq

/-- One call an adapter makes into the progress strategy from inside
`onQueueUpdate`. -/
inductive StrategyCallRec where
  | queueCall
  | progressCall (stepIndex : Nat)
  | completedCall
deriving DecidableEq

/-- Embedding of one activation of the `onQueueUpdate` callback of the Flux
Pro text-to-image adapter (src/nodes/flux-pro/utils.ts lines 494-506); the
Flux-1 Krea Redux adapter's callback (lines 286-298 of its file) is
identical.  `IN_QUEUE` calls `strategy.onQueue()`; `IN_PROGRESS` increments
the local `stepCount` and calls `strategy.onProgress(status, stepCount)`;
`COMPLETED` calls `strategy.onCompleted()`. -/
def onQueueUpdateStep (stepCount : Nat) (status : FalStatus) :
    Nat × StrategyCallRec :=
  match status with
  | .inQueue => (stepCount, .queueCall)
  | .inProgress => (stepCount + 1, .progressCall (stepCount + 1))
  | .completed => (stepCount, .completedCall)

/-- The calls issued into the strategy over a whole sequence of lifecycle
events, threading the adapter's local `stepCount` (initialised to 0 by
`let stepCount = 0`). -/
def runOnQueueUpdate : Nat → List FalStatus → List StrategyCallRec
  | _, [] => []
  | n, s :: rest =>
    (onQueueUpdateStep n s).2 :: runOnQueueUpdate (onQueueUpdateStep n s).1 rest

/-- Whether a lifecycle event is an `IN_PROGRESS` event. -/
def isInProgress (s : FalStatus) : Bool :=
  match s with
  | .inProgress => true
  | _ => false

/-- Extract the `stepIndex` of a strategy call when it is an `onProgress`
call. -/
def stepIndexOf (c : StrategyCallRec) : Option Nat :=
  match c with
  | .progressCall i => some i
  | _ => none

theorem runOnQueueUpdate_length (events : List FalStatus) (n : Nat) :
    (runOnQueueUpdate n events).length = events.length := by
  induction events generalizing n with
  | nil => rfl
  | cons s rest ih => cases s <;> simp [runOnQueueUpdate, onQueueUpdateStep, ih]

theorem runOnQueueUpdate_get (events : List FalStatus) (n : Nat)
    (i : Nat) (hi : i < events.length)
    (hc : i < (runOnQueueUpdate n events).length) :
    (events.get ⟨i, hi⟩ = FalStatus.inQueue →
      (runOnQueueUpdate n events).get ⟨i, hc⟩ = StrategyCallRec.queueCall) ∧
    (events.get ⟨i, hi⟩ = FalStatus.completed →
      (runOnQueueUpdate n events).get ⟨i, hc⟩ = StrategyCallRec.completedCall) ∧
    (events.get ⟨i, hi⟩ = FalStatus.inProgress →
      (runOnQueueUpdate n events).get ⟨i, hc⟩ =
        StrategyCallRec.progressCall
          (n + (events.take (i + 1)).countP isInProgress)) := by
  induction events generalizing n i with
  | nil => exact absurd hi (Nat.not_lt_zero i)
  | cons s rest ih =>
    cases i with
    | zero =>
      cases s <;>
        simp [runOnQueueUpdate, onQueueUpdateStep, List.countP_cons, isInProgress]
    | succ j =>
      have hj : j < rest.length := Nat.lt_of_succ_lt_succ hi
      have hcj : j < (runOnQueueUpdate (onQueueUpdateStep n s).1 rest).length := by
        rw [runOnQueueUpdate_length]; exact hj
      have h := ih (onQueueUpdateStep n s).1 j hj hcj
      cases s with
      | inQueue =>
        simpa [runOnQueueUpdate, onQueueUpdateStep, List.countP_cons,
          isInProgress] using h
      | completed =>
        simpa [runOnQueueUpdate, onQueueUpdateStep, List.countP_cons,
          isInProgress] using h
      | inProgress =>
        refine ⟨fun he => ?_, fun he => ?_, fun he => ?_⟩
        · exact h.1 he
        · exact h.2.1 he
        · have := h.2.2 he
          simpa [runOnQueueUpdate, onQueueUpdateStep, List.countP_cons,
            isInProgress, Nat.add_comm, Nat.add_assoc, Nat.add_left_comm]
            using this

theorem runOnQueueUpdate_filterMap (events : List FalStatus) (n : Nat) :
    (runOnQueueUpdate n events).filterMap stepIndexOf =
      List.range' (n + 1) (events.countP isInProgress) := by
  induction events generalizing n with
  | nil => rfl
  | cons s rest ih =>
    cases s with
    | inQueue =>
      simpa [runOnQueueUpdate, onQueueUpdateStep, stepIndexOf,
        List.countP_cons, isInProgress] using ih n
    | completed =>
      simpa [runOnQueueUpdate, onQueueUpdateStep, stepIndexOf,
        List.countP_cons, isInProgress] using ih n
    | inProgress =>
      simp [runOnQueueUpdate, onQueueUpdateStep, stepIndexOf,
        List.countP_cons, isInProgress, ih (n + 1), List.range'_succ,
        Nat.add_comm, Nat.add_assoc, Nat.add_left_comm]

/-- Embedding of one activation of the `onQueueUpdate` callback of the
SeedVR upscale adapters (src/nodes/seedvr/SeedvrUpscaleImageNode.ts lines
162-173 and the video-upscale variant, lines 186-197 of its file): these
maintain no counter at all and call `strategy.onProgress(status, 0)` with
the constant step index 0 on every `IN_PROGRESS` event. -/
def seedvrOnQueueUpdateStep (status : FalStatus) : StrategyCallRec :=
  match status with
  | .inQueue => .queueCall
  | .inProgress => .progressCall 0
  | .completed => .completedCall

/-- The calls the SeedVR upscale callback issues over a whole sequence of
lifecycle events (no state is threaded, since the callback keeps none). -/
def runSeedvrOnQueueUpdate (events : List FalStatus) : List StrategyCallRec :=
  events.map seedvrOnQueueUpdateStep

theorem seedvr_stepIndices (events : List FalStatus) :
    (runSeedvrOnQueueUpdate events).filterMap stepIndexOf =
      List.replicate (events.countP isInProgress) 0 := by
  induction events with
  | nil => rfl
  | cons s rest ih =>
    cases s <;>
      simp [runSeedvrOnQueueUpdate, seedvrOnQueueUpdateStep, stepIndexOf,
        List.countP_cons, isInProgress, List.replicate_succ,
        ih, runSeedvrOnQueueUpdate] <;>
      simpa [runSeedvrOnQueueUpdate] using ih

/-- C8 counterexample: the claim's universal over every adapter fails at
the SeedVR upscale callback: on two consecutive `IN_PROGRESS` events it
passes the step-index values `[0, 0]` — not the
count-of-events-so-far sequence `[1, 2]`, and not strictly increasing. -/
theorem onQueueUpdate_stepCount_counterexample :
    (runSeedvrOnQueueUpdate
        [FalStatus.inProgress, FalStatus.inProgress]).filterMap stepIndexOf =
      [0, 0] ∧
    ¬ ((runSeedvrOnQueueUpdate
        [FalStatus.inProgress, FalStatus.inProgress]).filterMap stepIndexOf =
      List.range' 1
        ([FalStatus.inProgress, FalStatus.inProgress].countP isInProgress)) ∧
    ¬ List.Chain' (· < ·)
        ((runSeedvrOnQueueUpdate
          [FalStatus.inProgress, FalStatus.inProgress]).filterMap stepIndexOf) := by
  refine ⟨rfl, by decide, ?_⟩
  intro h
  rw [show (runSeedvrOnQueueUpdate
      [FalStatus.inProgress, FalStatus.inProgress]).filterMap stepIndexOf =
      [0, 0] from rfl] at h
  exact absurd (List.chain'_cons.mp h).1 (lt_irrefl 0)

/-- C8 (amended): in the adapters whose `onQueueUpdate` maintains a local
`stepCount` counter — the shape of the Flux Pro text-to-image and Flux-1
Krea Redux callbacks — the callback issues exactly one strategy call per
event; `onQueue` exactly on `IN_QUEUE` events, `onCompleted` exactly on
`COMPLETED` events, and on the `IN_PROGRESS` events an `onProgress` call
whose `stepIndex` equals the number of `IN_PROGRESS` events observed so
far, so that the successive `stepIndex` values form the sequence
1, 2, 3, …; the SeedVR upscale adapters deviate, passing the constant
`stepIndex` 0 on every `IN_PROGRESS` event. -/
theorem onQueueUpdate_stepCount_spec (events : List FalStatus) :
    (runOnQueueUpdate 0 events).length = events.length ∧
    (∀ (i : Nat) (hi : i < events.length)
        (hc : i < (runOnQueueUpdate 0 events).length),
      (events.get ⟨i, hi⟩ = FalStatus.inQueue →
        (runOnQueueUpdate 0 events).get ⟨i, hc⟩ = StrategyCallRec.queueCall) ∧
      (events.get ⟨i, hi⟩ = FalStatus.completed →
        (runOnQueueUpdate 0 events).get ⟨i, hc⟩ = StrategyCallRec.completedCall) ∧
      (events.get ⟨i, hi⟩ = FalStatus.inProgress →
        (runOnQueueUpdate 0 events).get ⟨i, hc⟩ =
          StrategyCallRec.progressCall ((events.take (i + 1)).countP isInProgress))) ∧
    (runOnQueueUpdate 0 events).filterMap stepIndexOf =
      List.range' 1 (events.countP isInProgress) ∧
    (∀ events2 : List FalStatus,
      (runSeedvrOnQueueUpdate events2).filterMap stepIndexOf =
        List.replicate (events2.countP isInProgress) 0) := by
  refine ⟨runOnQueueUpdate_length events 0, ?_,
    runOnQueueUpdate_filterMap events 0, seedvr_stepIndices⟩
  intro i hi hc
  have h := runOnQueueUpdate_get events 0 i hi hc
  simpa using h

/-- C8 witness: on the concrete event sequence queue, progress, progress,
completed, the counter-based callback's third call is an `onProgress`
call with `stepIndex = 2` and the `stepIndex` values passed overall are
`[1, 2]`; on progress, progress the SeedVR callback passes `[0, 0]`. -/
theorem onQueueUpdate_stepCount_spec_witness :
    (runOnQueueUpdate 0
        [FalStatus.inQueue, FalStatus.inProgress, FalStatus.inProgress,
          FalStatus.completed]).get ⟨2, by decide⟩ =
      StrategyCallRec.progressCall 2 ∧
    (runOnQueueUpdate 0
        [FalStatus.inQueue, FalStatus.inProgress, FalStatus.inProgress,
          FalStatus.completed]).filterMap stepIndexOf = [1, 2] ∧
    (runSeedvrOnQueueUpdate
        [FalStatus.inProgress, FalStatus.inProgress]).filterMap stepIndexOf =
      List.replicate 2 0 := by
  have h := onQueueUpdate_stepCount_spec
    [FalStatus.inQueue, FalStatus.inProgress, FalStatus.inProgress,
      FalStatus.completed]
  refine ⟨?_, ?_, ?_⟩
  · have := (h.2.1 2 (by decide) (by decide)).2.2 (by decide)
    simpa using this
  · have := h.2.2.1
    simpa using this
  · have := h.2.2.2 [FalStatus.inProgress, FalStatus.inProgress]
    simpa using this

/-- Characters matched by `[a-z0-9]` under the `i` flag in the URL
extension regex: ASCII letters (either case) and digits. -/
def isExtChar (c : Char) : Bool :=
  ('a' ≤ c && c ≤ 'z') || ('A' ≤ c && c ≤ 'Z') || ('0' ≤ c && c ≤ '9')

/-- `[^;]` of the MIME subtype regex. -/
def notSemi (c : Char) : Bool := c != ';'

/-- Case-insensitive "starts with" over character lists (ASCII folding, as
the `i` regex flag behaves on the ASCII content-type strings involved). -/
def ciStartsWith : List Char → List Char → Bool
  | [], _ => true
  | _ :: _, [] => false
  | p :: ps, c :: cs => (p.toLower == c.toLower) && ciStartsWith ps cs

/-- Executable model of `url.match(/\.([a-z0-9]+)(?:\?|$)/i)`: the leftmost
position holding a literal dot followed by a non-empty maximal run of
`[a-z0-9]` characters that is terminated by a question mark or the end of
the string; the returned value is the captured run.  (Backtracking cannot
shorten the greedy run: a shortened run is followed by an `[a-z0-9]`
character, which matches neither `\?` nor `$`.) -/
def urlExtMatch : List Char → Option (List Char)
  | [] => none
  | c :: rest =>
    if c = '.' then
      let run := rest.takeWhile isExtChar
      let tail := rest.dropWhile isExtChar
      if run = [] then urlExtMatch rest
      else if tail = [] then some run
      else if tail.head? = some '?' then some run
      else urlExtMatch rest
    else urlExtMatch rest

/-- Executable model of `contentType.match(/image\/(?:x-)?([^;]+)/i)` (and
its `video/` twin), with `tag` the literal part of the pattern: at the
leftmost occurrence of `tag`, the optional `x-` is consumed when a
non-empty `[^;]+` capture remains after it, otherwise the engine
backtracks and captures starting at the `x`; if no non-empty capture
exists at this occurrence, matching resumes at later positions. -/
def mimeCapture (tag : List Char) : List Char → Option (List Char)
  | [] => none
  | c :: rest =>
    if ciStartsWith tag (c :: rest) then
      let after := (c :: rest).drop tag.length
      if ciStartsWith ['x', '-'] after && !((after.drop 2).takeWhile notSemi).isEmpty then
        some ((after.drop 2).takeWhile notSemi)
      else if !(after.takeWhile notSemi).isEmpty then
        some (after.takeWhile notSemi)
      else mimeCapture tag rest
    else mimeCapture tag rest

/-- The two asset kinds `getAssetExtension` distinguishes. -/
inductive AssetType where
  | image | video
deriving DecidableEq

/-- Embedding of `getAssetExtension` from src/utils/index.ts (lines
13-39).  Priority 1: extension from the URL; priority 2: subtype from the
Content-Type header (skipped when the header is absent or empty, the
falsy strings of `if (contentType)`), lowercased with `jpeg ↦ jpg` for
images and `quicktime ↦ mov` for videos; priority 3: `png` / `mp4`. -/
def getAssetExtension (url : String) (contentType : Option String)
    (assetType : AssetType) : String :=
  match urlExtMatch url.toList with
  | some run => String.mk run
  | none =>
    match contentType with
    | some ct =>
      if ct = "" then
        match assetType with
        | .image => "png"
        | .video => "mp4"
      else
        match assetType with
        | .image =>
          match mimeCapture "image/".toList ct.toList with
          | some cap =>
            let e := String.mk (cap.map Char.toLower)
            if e = "jpeg" then "jpg" else e
          | none => "png"
        | .video =>
          match mimeCapture "video/".toList ct.toList with
          | some cap =>
            let e := String.mk (cap.map Char.toLower)
            if e = "quicktime" then "mov" else e
          | none => "mp4"
    | none =>
      match assetType with
      | .image => "png"
      | .video => "mp4"

/-- Claim-side reading of the URL extension condition at one index `i`:
the url has a dot at position `i` followed by a non-empty run of
alphanumeric characters sitting immediately before the end of the string
or a question mark. -/
def specExtAt (cs : List Char) (i : Nat) : Option (List Char) :=
  if cs.get? i = some '.' then
    let run := (cs.drop (i + 1)).takeWhile isExtChar
    let tail := (cs.drop (i + 1)).dropWhile isExtChar
    if run = [] then none
    else if tail = [] then some run
    else if tail.head? = some '?' then some run
    else none
  else none

/-- Claim-side URL extension: the first index at which `specExtAt`
produces a capture. -/
def specUrlExt (cs : List Char) : Option (List Char) :=
  (List.range cs.length).findSome? (specExtAt cs)

/-- Claim-side reading of the Content-Type condition at one index:
`tag` (`image/` or `video/`) occurs here, an optional `x-` prefix is
stripped when a subtype remains behind it, and the subtype up to a
semicolon is non-empty. -/
def specMimeAt (tag cs : List Char) (i : Nat) : Option (List Char) :=
  if ciStartsWith tag (cs.drop i) then
    if ciStartsWith ['x', '-'] ((cs.drop i).drop tag.length) &&
        !((((cs.drop i).drop tag.length).drop 2).takeWhile notSemi).isEmpty then
      some ((((cs.drop i).drop tag.length).drop 2).takeWhile notSemi)
    else if !(((cs.drop i).drop tag.length).takeWhile notSemi).isEmpty then
      some (((cs.drop i).drop tag.length).takeWhile notSemi)
    else none
  else none

/-- Claim-side Content-Type subtype: the first index at which `specMimeAt`
produces a capture. -/
def specMime (tag cs : List Char) : Option (List Char) :=
  (List.range cs.length).findSome? (specMimeAt tag cs)

/-- Claim-side restatement of `getAssetExtension`, written from the
claim's description of the priority order.  It deliberately omits the
empty-Content-Type short circuit of the source: an empty header matches
no MIME pattern, so the claim's wording does not need the case. -/
def assetExtensionClaim (url : String) (contentType : Option String)
    (assetType : AssetType) : String :=
  match specUrlExt url.toList with
  | some run => String.mk run
  | none =>
    match contentType with
    | some ct =>
      match assetType with
      | .image =>
        match specMime "image/".toList ct.toList with
        | some cap =>
          let e := String.mk (cap.map Char.toLower)
          if e = "jpeg" then "jpg" else e
        | none => "png"
      | .video =>
        match specMime "video/".toList ct.toList with
        | some cap =>
          let e := String.mk (cap.map Char.toLower)
          if e = "quicktime" then "mov" else e
        | none => "mp4"
    | none =>
      match assetType with
      | .image => "png"
      | .video => "mp4"

theorem findSome?_map_succ {α : Type} (f : Nat → Option α) :
    ∀ (l : List Nat), (l.map Nat.succ).findSome? f = l.findSome? (fun i => f (i + 1)) := by
  intro l
  induction l with
  | nil => rfl
  | cons a l ih =>
    simp only [List.map_cons, List.findSome?_cons]
    cases f (a + 1) <;> simp [ih]

theorem specExtAt_cons (c : Char) (cs : List Char) (i : Nat) :
    specExtAt (c :: cs) (i + 1) = specExtAt cs i := rfl

theorem urlExtMatch_eq_specUrlExt : ∀ cs : List Char,
    urlExtMatch cs = specUrlExt cs := by
  intro cs
  induction cs with
  | nil => rfl
  | cons c rest ih =>
    have hfun : (fun i => specExtAt (c :: rest) (i + 1)) = specExtAt rest :=
      funext fun i => specExtAt_cons c rest i
    have hrange : specUrlExt (c :: rest) =
        match specExtAt (c :: rest) 0 with
        | some v => some v
        | none => specUrlExt rest := by
      show (List.range (rest.length + 1)).findSome? (specExtAt (c :: rest)) = _
      rw [List.range_succ_eq_map, List.findSome?_cons, findSome?_map_succ, hfun]
      cases specExtAt (c :: rest) 0 <;> rfl
    rw [hrange]
    by_cases hc : c = '.'
    · subst hc
      show urlExtMatch ('.' :: rest) = _
      have hat : specExtAt ('.' :: rest) 0 =
          (if rest.takeWhile isExtChar = [] then none
           else if rest.dropWhile isExtChar = [] then some (rest.takeWhile isExtChar)
           else if (rest.dropWhile isExtChar).head? = some '?' then some (rest.takeWhile isExtChar)
           else none) := by
        simp [specExtAt]
      rw [hat]
      by_cases h1 : rest.takeWhile isExtChar = []
      · simp [urlExtMatch, h1, ih]
      · by_cases h2 : rest.dropWhile isExtChar = []
        · simp [urlExtMatch, h1, h2]
        · by_cases h3 : (rest.dropWhile isExtChar).head? = some '?'
          · simp [urlExtMatch, h1, h2, h3]
          · simp [urlExtMatch, h1, h2, h3, ih]
    · have hat : specExtAt (c :: rest) 0 = none := by
        simp [specExtAt, hc]
      rw [hat]
      simp [urlExtMatch, hc, ih]

theorem specMimeAt_cons (tag : List Char) (c : Char) (cs : List Char) (i : Nat) :
    specMimeAt tag (c :: cs) (i + 1) = specMimeAt tag cs i := rfl

theorem mimeCapture_eq_specMime (tag : List Char) : ∀ cs : List Char,
    mimeCapture tag cs = specMime tag cs := by
  intro cs
  induction cs with
  | nil => rfl
  | cons c rest ih =>
    have hfun : (fun i => specMimeAt tag (c :: rest) (i + 1)) = specMimeAt tag rest :=
      funext fun i => specMimeAt_cons tag c rest i
    have hrange : specMime tag (c :: rest) =
        match specMimeAt tag (c :: rest) 0 with
        | some v => some v
        | none => specMime tag rest := by
      show (List.range (rest.length + 1)).findSome? (specMimeAt tag (c :: rest)) = _
      rw [List.range_succ_eq_map, List.findSome?_cons, findSome?_map_succ, hfun]
      cases specMimeAt tag (c :: rest) 0 <;> rfl
    rw [hrange]
    simp only [mimeCapture, specMimeAt, List.drop_zero]
    by_cases htag : ciStartsWith tag (c :: rest) = true
    · rw [if_pos htag, if_pos htag]
      by_cases hx : (ciStartsWith ['x', '-'] ((c :: rest).drop tag.length) &&
          !((((c :: rest).drop tag.length).drop 2).takeWhile notSemi).isEmpty) = true
      · rw [if_pos hx, if_pos hx]
      · rw [if_neg hx, if_neg hx]
        by_cases hr : (!(((c :: rest).drop tag.length).takeWhile notSemi).isEmpty) = true
        · rw [if_pos hr, if_pos hr]
        · rw [if_neg hr, if_neg hr, ih]
    · rw [if_neg htag, if_neg htag, ih]

/-- C9: `getAssetExtension` is total and agrees everywhere with the
claim's description: a URL extension (a dot followed by alphanumerics
right before the end or a `?`) wins and makes the Content-Type
irrelevant; otherwise a Content-Type matching `image/...` resp.
`video/...` (optional `x-` stripped) yields the lowercased subtype with
`jpeg ↦ jpg` and `quicktime ↦ mov`; otherwise the default is `png` for
images and `mp4` for videos. -/
theorem getAssetExtension_spec (url : String) (contentType : Option String)
    (assetType : AssetType) :
    getAssetExtension url contentType assetType =
      assetExtensionClaim url contentType assetType := by
  unfold getAssetExtension assetExtensionClaim
  rw [urlExtMatch_eq_specUrlExt]
  cases specUrlExt url.toList with
  | some run => rfl
  | none =>
    cases contentType with
    | none => rfl
    | some ct =>
      by_cases hct : ct = ""
      · subst hct
        cases assetType <;> rfl
      · simp only [hct, if_false]
        cases assetType <;> simp only [mimeCapture_eq_specMime]

/-- Modelled from the spec: the configuration of the progress strategy
(`createProgressStrategy` of utils/progress-strategy.ts, a module whose
implementation is absent from the source tree; only its callers are
present).  The spec's Strategy Configuration is `{ expectedMs,
inQueueMessage, finalizingMessage, defaultInProgressMessage }`; the
default-message function is modelled as optional so that the spec's third
precedence tier (the generic fallback string) is representable. -/
structure StrategyConfig where
  expectedMs : ℤ
  inQueueMessage : String
  finalizingMessage : String
  defaultInProgressMessage : Option (Nat → String)

/-- Modelled from the spec: the opaque lifecycle event passed to
`onProgress`, which "may or may not carry a textual log fragment". -/
structure RawEvent where
  logs : List String
deriving DecidableEq

/-- Modelled from the spec: the internal state of one estimator instance —
the wall-clock time at construction and the monotonic counter of
in-progress events observed; `lastStep` records the last reported step and
realizes the spec's invariant that the reported step never regresses. -/
structure StrategyState where
  startMs : Nat
  progressCount : Nat
  lastStep : Nat
deriving DecidableEq

/-- Modelled from the spec: the `{ step, total: 100, message }` tuple each
handler returns. -/
structure ProgressUpdate where
  step : Nat
  total : Nat
  message : String
deriving DecidableEq

/-- Modelled from the spec: the low fixed step reported while queued
("a low, fixed step (e.g. in the 0-10 range)"). -/
def queueStep : Nat := 5

/-- Modelled from the spec: the pre-terminal ceiling for time-based
estimates ("capped at 95-99 so only the terminal transition yields 100"). -/
def ceilingStep : Nat := 95

/-- Modelled from the spec: the generic fallback in-progress message, the
lowest tier of the message-selection precedence. -/
def fallbackInProgressMessage : String := "Processing..."

/-- Exact character-list "starts with" used by the milestone matcher. -/
def startsWithChars : List Char → List Char → Bool
  | [], _ => true
  | _ :: _, [] => false
  | p :: ps, c :: cs => (p == c) && startsWithChars ps cs

/-- Whether `needle` occurs as a contiguous substring of `hay`. -/
def hasSubstr : List Char → List Char → Bool
  | [], needle => needle.isEmpty
  | c :: rest, needle => startsWithChars needle (c :: rest) || hasSubstr rest needle

/-- Modelled from the spec: the table of known milestone phrases and the
milestone-specific messages substituted when a provider log line contains
the phrase (the spec leaves the concrete entries to the implementation;
two representative entries are used). -/
def milestoneTable : List (String × String) :=
  [("Uploading", "Uploading results..."), ("Rendering", "Rendering output...")]

/-- Modelled from the spec: find the message of the first milestone whose
phrase occurs in one of the event's log lines. -/
def milestoneFor (logs : List String) : Option String :=
  milestoneTable.findSome? fun p =>
    if logs.any fun l => hasSubstr l.toList p.1.toList then some p.2 else none

/-- Fresh estimator state at construction time `startMs`. -/
def initState (startMs : Nat) : StrategyState :=
  { startMs := startMs, progressCount := 0, lastStep := 0 }

/-- Modelled from the spec: the time-based completion estimate — elapsed
wall-clock time over `expectedMs`, scaled to a step and clamped to the
pre-terminal ceiling; a non-positive `expectedMs` is treated as already
saturated at the ceiling instead of dividing by zero. -/
def timeStep (cfg : StrategyConfig) (elapsed : Nat) : Nat :=
  if cfg.expectedMs ≤ 0 then ceilingStep
  else min ceilingStep (elapsed * ceilingStep / cfg.expectedMs.toNat)

/-- Modelled from the spec: the blend of the time-based estimate with the
caller-supplied monotonic `stepIndex`, so progress advances visibly even
when the time estimate is inaccurate; both components stay at or below
the pre-terminal ceiling. -/
def blendStep (cfg : StrategyConfig) (elapsed stepIndex : Nat) : Nat :=
  max (timeStep cfg elapsed) (min ceilingStep (queueStep + stepIndex))

/-- Modelled from the spec: `onQueue()` — the configured queue message and
a low stable step that never regresses below what was already reported. -/
def onQueue (cfg : StrategyConfig) (st : StrategyState) :
    ProgressUpdate × StrategyState :=
  let step := max st.lastStep queueStep
  ({ step := step, total := 100, message := cfg.inQueueMessage },
   { st with lastStep := step })

/-- Modelled from the spec: the message-selection precedence of
`onProgress` — milestone match, then the caller-supplied default-message
function, then the generic fallback. -/
def progressMessage (cfg : StrategyConfig) (e : RawEvent) (stepIndex : Nat) :
    String :=
  match milestoneFor e.logs with
  | some m => m
  | none =>
    match cfg.defaultInProgressMessage with
    | some f => f stepIndex
    | none => fallbackInProgressMessage

/-- Modelled from the spec: `onProgress(rawEvent, stepIndex)` — blends the
clamped time-based estimate with the step index, never regresses below
the last reported step, counts the in-progress event, and selects the
message by the precedence rule. -/
def onProgress (cfg : StrategyConfig) (st : StrategyState) (now : Nat)
    (e : RawEvent) (stepIndex : Nat) : ProgressUpdate × StrategyState :=
  let step := max st.lastStep (blendStep cfg (now - st.startMs) stepIndex)
  ({ step := step, total := 100, message := progressMessage cfg e stepIndex },
   { st with progressCount := st.progressCount + 1, lastStep := step })

/-- Modelled from the spec: `onCompleted()` — exactly 100 and the
configured finalizing message, whatever the state. -/
def onCompleted (cfg : StrategyConfig) (st : StrategyState) :
    ProgressUpdate × StrategyState :=
  ({ step := 100, total := 100, message := cfg.finalizingMessage },
   { st with lastStep := 100 })

/-- A call made into a single estimator instance before completion. -/
inductive StrategyCall where
  | queue : StrategyCall
  | progress (now : Nat) (e : RawEvent) (stepIndex : Nat) : StrategyCall
deriving DecidableEq

/-- Dispatch one call to the corresponding handler. -/
def applyCall (cfg : StrategyConfig) (st : StrategyState) :
    StrategyCall → ProgressUpdate × StrategyState
  | .queue => onQueue cfg st
  | .progress now e i => onProgress cfg st now e i

/-- Run a sequence of pre-completion calls, returning the updates. -/
def runStrategy (cfg : StrategyConfig) (st : StrategyState) :
    List StrategyCall → List ProgressUpdate
  | [] => []
  | c :: rest =>
    (applyCall cfg st c).1 :: runStrategy cfg (applyCall cfg st c).2 rest

/-- The stepIndex arguments supplied by the caller across a call list. -/
def stepIndicesOf (calls : List StrategyCall) : List Nat :=
  calls.filterMap fun c =>
    match c with
    | .progress _ _ i => some i
    | .queue => none

theorem applyCall_step_eq (cfg : StrategyConfig) (st : StrategyState)
    (c : StrategyCall) :
    (applyCall cfg st c).1.step = (applyCall cfg st c).2.lastStep := by
  cases c <;> rfl

theorem applyCall_lastStep_mono (cfg : StrategyConfig) (st : StrategyState)
    (c : StrategyCall) : st.lastStep ≤ (applyCall cfg st c).2.lastStep := by
  cases c <;> exact le_max_left _ _

theorem timeStep_le_ceiling (cfg : StrategyConfig) (elapsed : Nat) :
    timeStep cfg elapsed ≤ ceilingStep := by
  unfold timeStep
  split
  · exact le_refl _
  · exact min_le_left _ _

theorem blendStep_le_ceiling (cfg : StrategyConfig) (elapsed i : Nat) :
    blendStep cfg elapsed i ≤ ceilingStep :=
  max_le (timeStep_le_ceiling cfg elapsed) (min_le_left _ _)

theorem applyCall_lastStep_le_ceiling (cfg : StrategyConfig)
    (st : StrategyState) (c : StrategyCall) (h : st.lastStep ≤ ceilingStep) :
    (applyCall cfg st c).2.lastStep ≤ ceilingStep := by
  cases c with
  | queue =>
    exact max_le h (by norm_num [queueStep, ceilingStep])
  | progress now e i =>
    exact max_le h (blendStep_le_ceiling cfg _ i)

theorem runStrategy_chain_aux (cfg : StrategyConfig) :
    ∀ (calls : List StrategyCall) (st : StrategyState),
      List.Chain' (· ≤ ·)
        (st.lastStep :: (runStrategy cfg st calls).map ProgressUpdate.step) := by
  intro calls
  induction calls with
  | nil => intro st; simp [runStrategy]
  | cons c rest ih =>
    intro st
    have hrun : runStrategy cfg st (c :: rest) =
        (applyCall cfg st c).1 :: runStrategy cfg (applyCall cfg st c).2 rest := rfl
    rw [hrun, List.map_cons, applyCall_step_eq]
    exact List.Chain'.cons (applyCall_lastStep_mono cfg st c)
      (ih (applyCall cfg st c).2)

/-- C1: across every finite sequence of `onQueue` and `onProgress` calls
on one estimator (caller-supplied step indices non-decreasing), the
returned steps are non-decreasing; in particular two consecutive
`onQueue()` calls never regress. -/
theorem strategy_steps_monotone (cfg : StrategyConfig) (startMs : Nat)
    (calls : List StrategyCall)
    (hIdx : List.Chain' (· ≤ ·) (stepIndicesOf calls)) :
    List.Chain' (· ≤ ·)
      ((runStrategy cfg (initState startMs) calls).map ProgressUpdate.step) := by
  have h := runStrategy_chain_aux cfg calls (initState startMs)
  exact (List.chain'_cons'.mp h).2

/-- A concrete configuration used by the closed instances below
(`expectedMs = 10000`, as in the spec's walk-through scenario). -/
def exampleConfig : StrategyConfig :=
  { expectedMs := 10000, inQueueMessage := "In queue...",
    finalizingMessage := "Finalizing...",
    defaultInProgressMessage := some fun n => "step " ++ toString n }

/-- A concrete call sequence: one in-progress event observed at 20000 ms
(double the expected duration), then a re-queue. -/
def exampleCalls : List StrategyCall :=
  [StrategyCall.progress 20000 ⟨[]⟩ 1, StrategyCall.queue]

/-- C1 witness: the step sequence of the concrete run is non-decreasing. -/
theorem strategy_steps_monotone_witness :
    List.Chain' (· ≤ ·)
      ((runStrategy exampleConfig (initState 0) exampleCalls).map
        ProgressUpdate.step) :=
  strategy_steps_monotone exampleConfig 0 exampleCalls
    (by simp [stepIndicesOf, exampleCalls])

/-- C2: `onCompleted()` returns exactly step 100 (of total 100) and the
configured finalizing message, from every estimator state, hence
regardless of elapsed time and of the preceding calls. -/
theorem onCompleted_returns_100 (cfg : StrategyConfig) (st : StrategyState) :
    (onCompleted cfg st).1.step = 100 ∧ (onCompleted cfg st).1.total = 100 ∧
    (onCompleted cfg st).1.message = cfg.finalizingMessage :=
  ⟨rfl, rfl, rfl⟩

theorem runStrategy_le_ceiling (cfg : StrategyConfig) :
    ∀ (calls : List StrategyCall) (st : StrategyState),
      st.lastStep ≤ ceilingStep →
      ∀ u ∈ runStrategy cfg st calls, u.step ≤ ceilingStep := by
  intro calls
  induction calls with
  | nil => intro st _ u hu; simp [runStrategy] at hu
  | cons c rest ih =>
    intro st hst u hu
    have hrun : runStrategy cfg st (c :: rest) =
        (applyCall cfg st c).1 :: runStrategy cfg (applyCall cfg st c).2 rest := rfl
    rw [hrun] at hu
    rcases List.mem_cons.mp hu with h | h
    · subst h
      rw [applyCall_step_eq]
      exact applyCall_lastStep_le_ceiling cfg st c hst
    · exact ih (applyCall cfg st c).2
        (applyCall_lastStep_le_ceiling cfg st c hst) u h

/-- C3: before `onCompleted()` is called, every update the estimator
returns — in particular every `onProgress` result, for arbitrary elapsed
time and step index — has a step at most the pre-terminal ceiling 95,
hence strictly less than 100. -/
theorem onProgress_lt_100 (cfg : StrategyConfig) (startMs : Nat)
    (calls : List StrategyCall) :
    ∀ u ∈ runStrategy cfg (initState startMs) calls,
      u.step ≤ ceilingStep ∧ u.step < 100 := by
  intro u hu
  have h := runStrategy_le_ceiling cfg calls (initState startMs)
    (Nat.zero_le _) u hu
  exact ⟨h, lt_of_le_of_lt h (by norm_num [ceilingStep])⟩

/-- C3 witness: the first update of the concrete run (an `onProgress`
result at twice the expected duration) has step 95 < 100. -/
theorem onProgress_lt_100_witness :
    (⟨95, 100, "step 1"⟩ : ProgressUpdate).step ≤ ceilingStep ∧
    (⟨95, 100, "step 1"⟩ : ProgressUpdate).step < 100 :=
  onProgress_lt_100 exampleConfig 0 exampleCalls ⟨95, 100, "step 1"⟩ (by decide)

/-- C4: with `expectedMs ≤ 0` the estimator does not fault: the
time-based estimate is exactly the saturated pre-terminal ceiling, the
`onProgress` step is the never-regressing ceiling value, and it is
non-negative (no `NaN` is representable: every handler is a total
function into naturals). -/
theorem onProgress_degenerate (cfg : StrategyConfig) (st : StrategyState)
    (now : Nat) (e : RawEvent) (i : Nat) (h : cfg.expectedMs ≤ 0) :
    timeStep cfg (now - st.startMs) = ceilingStep ∧
    (onProgress cfg st now e i).1.step = max st.lastStep ceilingStep ∧
    (0 : ℤ) ≤ ((onProgress cfg st now e i).1.step : ℤ) := by
  have ht : timeStep cfg (now - st.startMs) = ceilingStep := by
    unfold timeStep
    rw [if_pos h]
  refine ⟨ht, ?_, Int.natCast_nonneg _⟩
  show max st.lastStep (blendStep cfg (now - st.startMs) i) = max st.lastStep ceilingStep
  unfold blendStep
  rw [ht, max_eq_left (min_le_left _ _)]

/-- The example configuration with the degenerate `expectedMs = 0`. -/
def exampleConfigZero : StrategyConfig :=
  { exampleConfig with expectedMs := 0 }

/-- C4 witness at `expectedMs = 0` and a concrete call. -/
theorem onProgress_degenerate_witness :
    timeStep exampleConfigZero (5 - (initState 0).startMs) = ceilingStep ∧
    (onProgress exampleConfigZero (initState 0) 5 ⟨[]⟩ 1).1.step =
      max (initState 0).lastStep ceilingStep ∧
    (0 : ℤ) ≤ ((onProgress exampleConfigZero (initState 0) 5 ⟨[]⟩ 1).1.step : ℤ) :=
  onProgress_degenerate exampleConfigZero (initState 0) 5 ⟨[]⟩ 1 (by decide)

/-- C5 counterexample: with the positive `expectedMs = 10000`, after an
in-progress event has pushed the reported step to 95, a re-queued
`onQueue()` call repeats 95 — outside the claimed `[0, 10]` range
(regressing to the queue band would violate the spec's headline
no-regression invariant, which the model preserves). -/
theorem onQueue_range_counterexample :
    (0 : ℤ) < exampleConfig.expectedMs ∧
    ((runStrategy exampleConfig (initState 0) exampleCalls).get
      ⟨1, by decide⟩).step = 95 ∧
    ¬ ((runStrategy exampleConfig (initState 0) exampleCalls).get
      ⟨1, by decide⟩).step ≤ 10 := by
  exact ⟨by decide, by decide, by decide⟩

/-- C5 (amended): `onQueue()` returns the configured in-queue message and
a step in `[0, 10]` on every call made while no earlier call has reported
a step above 10 — in particular on all calls preceding the first
in-progress event — and such a call keeps the state in that band; a
re-queue after progress beyond 10 instead repeats the last reported step,
preserving monotonicity. -/
theorem onQueue_low_range (cfg : StrategyConfig) (st : StrategyState)
    (hexp : 0 < cfg.expectedMs) (h : st.lastStep ≤ 10) :
    queueStep ≤ (onQueue cfg st).1.step ∧
    (onQueue cfg st).1.step ≤ 10 ∧
    (onQueue cfg st).1.message = cfg.inQueueMessage ∧
    (onQueue cfg st).2.lastStep ≤ 10 := by
  refine ⟨le_max_right _ _, ?_, rfl, ?_⟩
  · exact max_le h (by norm_num [queueStep])
  · exact max_le h (by norm_num [queueStep])

/-- C5 (amended) witness: the first `onQueue()` call on a fresh estimator
returns step 5 with the configured message. -/
theorem onQueue_low_range_witness :
    queueStep ≤ (onQueue exampleConfig (initState 0)).1.step ∧
    (onQueue exampleConfig (initState 0)).1.step ≤ 10 ∧
    (onQueue exampleConfig (initState 0)).1.message =
      exampleConfig.inQueueMessage ∧
    (onQueue exampleConfig (initState 0)).2.lastStep ≤ 10 :=
  onQueue_low_range exampleConfig (initState 0) (by decide) (by decide)

/-- C6: `onProgress` message precedence — a recognized milestone phrase in
the event's log lines yields the milestone-specific message even when the
default-message function is present; absent a milestone, the
caller-supplied default-message function applied to the step index is
returned; the generic fallback is returned only when neither applies. -/
theorem onProgress_message_precedence (cfg : StrategyConfig)
    (st : StrategyState) (now : Nat) (e : RawEvent) (i : Nat) :
    (∀ m, milestoneFor e.logs = some m →
      (onProgress cfg st now e i).1.message = m) ∧
    (∀ f, milestoneFor e.logs = none →
      cfg.defaultInProgressMessage = some f →
      (onProgress cfg st now e i).1.message = f i) ∧
    (milestoneFor e.logs = none → cfg.defaultInProgressMessage = none →
      (onProgress cfg st now e i).1.message = fallbackInProgressMessage) := by
  refine ⟨?_, ?_, ?_⟩
  · intro m hm
    show progressMessage cfg e i = m
    unfold progressMessage
    rw [hm]
  · intro f hm hf
    show progressMessage cfg e i = f i
    unfold progressMessage
    rw [hm, hf]
  · intro hm hf
    show progressMessage cfg e i = fallbackInProgressMessage
    unfold progressMessage
    rw [hm, hf]

/-- An event whose log line contains the known milestone phrase
"Uploading". -/
def exampleMilestoneEvent : RawEvent := ⟨["Now Uploading artifacts"]⟩

/-- C6 witness: on the milestone-carrying event, the milestone-specific
message wins although the default-message function is also supplied. -/
theorem onProgress_message_precedence_witness :
    (onProgress exampleConfig (initState 0) 0 exampleMilestoneEvent 1).1.message =
      "Uploading results..." :=
  (onProgress_message_precedence exampleConfig (initState 0) 0
    exampleMilestoneEvent 1).1 "Uploading results..." (by decide)
